import Mathlib

/-!
# Verification of the disjunctive-conditions removal pass and the HTN subtask model

This file embeds, in Lean 4, the core of the `DisjunctiveConditionsRemover`
transformation pass of the `unified-planning` repository (formula
normalization to DNF, action splitting, generated-action naming, plan
back-rewriting) together with the HTN `Task`/`Subtask` identifier model of
`unified_planning/model/htn/task.py`, and proves or refutes the frozen
specification claims about them.

The repository excerpt ships only the test-suite of the transformer
(`upf/test/test_disjunctive_conditions_remover.py`); the transformer itself
is absent, so its definitions below are modelled from the specification
(spec.md §3–§4 and §6–§7) and cross-checked against the concrete expected
outputs recorded in the test-suite.  The HTN `Subtask` model is embedded
directly from `task.py` (the process-wide counter becomes explicit state
threading).
-/

set_option maxRecDepth 4096

namespace UPF

/-! ## Boolean expressions

Modelled from the spec: expression trees over connectives
{And, Or, Not, Implies, Iff} and atomic conditions (spec §6); atoms are
identified by a natural number. -/

inductive BExpr : Type where
  | atom : Nat → BExpr
  | bnot : BExpr → BExpr
  | band : BExpr → BExpr → BExpr
  | bor : BExpr → BExpr → BExpr
  | imp : BExpr → BExpr → BExpr
  | iff : BExpr → BExpr → BExpr
deriving DecidableEq, Repr

/-- Truth-value of an expression under an assignment of the atoms. -/
def BExpr.eval (s : Nat → Bool) : BExpr → Bool
  | .atom n => s n
  | .bnot e => !(e.eval s)
  | .band p q => p.eval s && q.eval s
  | .bor p q => p.eval s || q.eval s
  | .imp p q => !(p.eval s) || q.eval s
  | .iff p q => p.eval s == q.eval s

/-! ## Literals and clauses (spec §3) -/

/-- A literal: an atomic condition (`pos := true`) or its negation. -/
structure Literal : Type where
  atom : Nat
  pos : Bool
deriving DecidableEq, Repr

def Literal.eval (s : Nat → Bool) (l : Literal) : Bool :=
  s l.atom == l.pos

/-- A clause: a list of literals interpreted as their conjunction;
the empty clause denotes the constant true. -/
abbrev Clause : Type := List Literal

def Clause.eval (s : Nat → Bool) (c : Clause) : Bool :=
  c.all (Literal.eval s)

/-- A literal rendered back as an expression. -/
def Literal.toExpr (l : Literal) : BExpr :=
  if l.pos then .atom l.atom else .bnot (.atom l.atom)

/-- A DNF result: a list of clauses interpreted as their disjunction. -/
def Dnf.eval (s : Nat → Bool) (d : List Clause) : Bool :=
  d.any (Clause.eval s)

/-! ## The formula normalizer

Modelled from the spec: §4.1 steps 1–4.  Step 1 eliminates `Implies` and
`Iff`; step 2 pushes negation to the leaves; steps 3–4 distribute `And`
over `Or` and flatten into a clause list; finally clauses containing a
literal together with its negation are dropped (the simplification that
the observed behaviour in the test-suite performs). -/

/-- Step 1: eliminate biconditional and implication
(`Implies(p,q) = Or(Not p, q)`, `Iff(p,q) = Or(And(p,q), And(Not p, Not q))`),
applied recursively bottom-up. -/
def elimImpIff : BExpr → BExpr
  | .atom n => .atom n
  | .bnot e => .bnot (elimImpIff e)
  | .band p q => .band (elimImpIff p) (elimImpIff q)
  | .bor p q => .bor (elimImpIff p) (elimImpIff q)
  | .imp p q => .bor (.bnot (elimImpIff p)) (elimImpIff q)
  | .iff p q =>
      .bor (.band (elimImpIff p) (elimImpIff q))
        (.band (.bnot (elimImpIff p)) (.bnot (elimImpIff q)))

mutual
/-- Step 2, positive side: negation normal form of `e`. -/
def nnfPos : BExpr → BExpr
  | .atom n => .atom n
  | .bnot e => nnfNeg e
  | .band p q => .band (nnfPos p) (nnfPos q)
  | .bor p q => .bor (nnfPos p) (nnfPos q)
  | .imp p q => .bor (nnfNeg p) (nnfPos q)
  | .iff p q => .iff (nnfPos p) (nnfPos q)

/-- Step 2, negative side: negation normal form of `Not e`
(De Morgan and double-negation elimination). -/
def nnfNeg : BExpr → BExpr
  | .atom n => .bnot (.atom n)
  | .bnot e => nnfPos e
  | .band p q => .bor (nnfNeg p) (nnfNeg q)
  | .bor p q => .band (nnfNeg p) (nnfNeg q)
  | .imp p q => .band (nnfPos p) (nnfNeg q)
  | .iff p q => .bnot (.iff (nnfPos p) (nnfPos q))
end

/-- Step 3: pairwise distribution of conjunction over a disjunction of
clauses — the Cartesian pairing, outer operand's clauses taken in order,
inner varying fastest. -/
def distr (xs ys : List Clause) : List Clause :=
  xs.flatMap (fun cx => ys.map (fun cy => cx ++ cy))

/-- Steps 3–4 on an NNF input: flatten into an ordered clause list. -/
def toClauses : BExpr → List Clause
  | .atom n => [[⟨n, true⟩]]
  | .bnot (.atom n) => [[⟨n, false⟩]]
  | .bnot _ => []
  | .band p q => distr (toClauses p) (toClauses q)
  | .bor p q => toClauses p ++ toClauses q
  | .imp _ _ => []
  | .iff _ _ => []

/-- A clause containing both a literal and its negation is logically false. -/
def Clause.contradictory (c : Clause) : Bool :=
  c.any (fun l => c.contains ⟨l.atom, !l.pos⟩)

/-- `normalize(expression) -> DNF Result` (spec §4.1): steps 1–4 in order,
dropping contradictory clauses. -/
def dnf (e : BExpr) : List Clause :=
  (toClauses (nnfPos (elimImpIff e))).filter (fun c => !c.contradictory)

/-! ### Correctness of the normalizer -/

theorem eval_elimImpIff (s : Nat → Bool) (e : BExpr) :
    (elimImpIff e).eval s = e.eval s := by
  induction e with
  | atom n => rfl
  | bnot e ih => simp [elimImpIff, BExpr.eval, ih]
  | band p q ihp ihq => simp [elimImpIff, BExpr.eval, ihp, ihq]
  | bor p q ihp ihq => simp [elimImpIff, BExpr.eval, ihp, ihq]
  | imp p q ihp ihq => simp [elimImpIff, BExpr.eval, ihp, ihq]
  | iff p q ihp ihq =>
      simp only [elimImpIff, BExpr.eval, ihp, ihq]
      cases p.eval s <;> cases q.eval s <;> rfl

theorem eval_nnf (s : Nat → Bool) (e : BExpr) :
    (nnfPos e).eval s = e.eval s ∧ (nnfNeg e).eval s = !(e.eval s) := by
  induction e with
  | atom n => exact ⟨rfl, rfl⟩
  | bnot e ih => exact ⟨ih.2, by simp [nnfNeg, BExpr.eval, ih.1]⟩
  | band p q ihp ihq =>
      constructor
      · simp [nnfPos, BExpr.eval, ihp.1, ihq.1]
      · simp [nnfNeg, BExpr.eval, ihp.2, ihq.2]
  | bor p q ihp ihq =>
      constructor
      · simp [nnfPos, BExpr.eval, ihp.1, ihq.1]
      · simp [nnfNeg, BExpr.eval, ihp.2, ihq.2]
  | imp p q ihp ihq =>
      constructor
      · simp [nnfPos, BExpr.eval, ihp.2, ihq.1]
      · simp [nnfNeg, BExpr.eval, ihp.1, ihq.2]
  | iff p q ihp ihq =>
      constructor
      · simp [nnfPos, BExpr.eval, ihp.1, ihq.1]
      · simp [nnfNeg, BExpr.eval, ihp.1, ihq.1]

theorem eval_dnf_append (s : Nat → Bool) (xs ys : List Clause) :
    Dnf.eval s (xs ++ ys) = (Dnf.eval s xs || Dnf.eval s ys) := by
  simp [Dnf.eval, List.any_append]

theorem eval_clause_append (s : Nat → Bool) (c d : Clause) :
    Clause.eval s (c ++ d) = (Clause.eval s c && Clause.eval s d) := by
  simp [Clause.eval, List.all_append]

theorem eval_distr_map (s : Nat → Bool) (c : Clause) (ys : List Clause) :
    Dnf.eval s (ys.map (fun cy => c ++ cy)) = (Clause.eval s c && Dnf.eval s ys) := by
  induction ys with
  | nil => simp [Dnf.eval]
  | cons d ys ihy =>
      simp only [List.map_cons, Dnf.eval, List.any_cons] at *
      rw [ihy, eval_clause_append]
      cases Clause.eval s c <;> cases Clause.eval s d <;>
        cases ys.any (Clause.eval s) <;> rfl

theorem eval_distr (s : Nat → Bool) (xs ys : List Clause) :
    Dnf.eval s (distr xs ys) = (Dnf.eval s xs && Dnf.eval s ys) := by
  induction xs with
  | nil => simp [distr, Dnf.eval]
  | cons c xs ih =>
      simp only [distr, List.flatMap_cons] at *
      rw [eval_dnf_append, ih, eval_distr_map]
      simp [Dnf.eval, List.any_cons, Bool.and_or_distrib_right]

theorem eval_toClauses_nnf_elim (s : Nat → Bool) (e : BExpr) :
    Dnf.eval s (toClauses (nnfPos (elimImpIff e))) = e.eval s ∧
      Dnf.eval s (toClauses (nnfNeg (elimImpIff e))) = !(e.eval s) := by
  induction e with
  | atom n => simp [elimImpIff, nnfPos, nnfNeg, toClauses, Dnf.eval,
      Clause.eval, Literal.eval, BExpr.eval]
  | bnot e ih =>
      exact ⟨ih.2, by simp [elimImpIff, nnfNeg, nnfPos, BExpr.eval, ih.1]⟩
  | band p q ihp ihq =>
      constructor
      · simp [elimImpIff, nnfPos, toClauses, eval_distr, BExpr.eval, ihp.1, ihq.1]
      · simp [elimImpIff, nnfNeg, toClauses, eval_dnf_append, BExpr.eval, ihp.2, ihq.2]
  | bor p q ihp ihq =>
      constructor
      · simp [elimImpIff, nnfPos, toClauses, eval_dnf_append, BExpr.eval, ihp.1, ihq.1]
      · simp [elimImpIff, nnfNeg, toClauses, eval_distr, BExpr.eval, ihp.2, ihq.2]
  | imp p q ihp ihq =>
      constructor
      · simp [elimImpIff, nnfPos, nnfNeg, toClauses, eval_dnf_append, BExpr.eval,
          ihp.2, ihq.1]
      · simp [elimImpIff, nnfNeg, nnfPos, toClauses, eval_distr, BExpr.eval,
          ihp.1, ihq.2]
  | iff p q ihp ihq =>
      constructor
      · simp only [elimImpIff, nnfPos, nnfNeg, toClauses, eval_dnf_append,
          eval_distr, BExpr.eval, ihp.1, ihq.1, ihp.2, ihq.2]
        cases p.eval s <;> cases q.eval s <;> rfl
      · simp only [elimImpIff, nnfNeg, nnfPos, toClauses, eval_dnf_append,
          eval_distr, BExpr.eval, ihp.1, ihq.1, ihp.2, ihq.2]
        cases p.eval s <;> cases q.eval s <;> rfl

theorem eval_contradictory (s : Nat → Bool) (c : Clause)
    (h : c.contradictory = true) : Clause.eval s c = false := by
  rcases List.any_eq_true.mp h with ⟨l, hl, hc⟩
  by_contra hev
  have hev' : Clause.eval s c = true := by
    cases hcv : Clause.eval s c
    · exact absurd hcv hev
    · rfl
  have h1 : Literal.eval s l = true := List.all_eq_true.mp hev' l hl
  have h2 : Literal.eval s ⟨l.atom, !l.pos⟩ = true :=
    List.all_eq_true.mp hev' _ (by simpa using hc)
  simp only [Literal.eval, beq_iff_eq] at h1 h2
  rw [h1] at h2
  cases l.pos <;> simp at h2

theorem eval_filter_contradictory (s : Nat → Bool) (d : List Clause) :
    Dnf.eval s (d.filter (fun c => !c.contradictory)) = Dnf.eval s d := by
  induction d with
  | nil => rfl
  | cons c d ih =>
      by_cases hc : c.contradictory = true
      · rw [List.filter_cons_of_neg (by simp [hc])]
        simp only [Dnf.eval, List.any_cons, eval_contradictory s c hc,
          Bool.false_or] at *
        exact ih
      · rw [List.filter_cons_of_pos (by simp [hc])]
        simp only [Dnf.eval, List.any_cons] at *
        rw [ih]

/-- Guarantee of §4.1: the returned clause list, interpreted as a disjunction
of conjunctions, is logically equivalent to the input expression. -/
theorem eval_dnf (s : Nat → Bool) (e : BExpr) :
    Dnf.eval s (dnf e) = e.eval s := by
  unfold dnf
  rw [eval_filter_contradictory, (eval_toClauses_nnf_elim s e).1]

/-! ## Actions and problems

Modelled from the spec: action objects expose a precondition structure
(one condition group per temporal anchor; a single unanchored group for an
instantaneous action, its entries logically conjoined), an effect list, and
a name (spec §3, §6).  Atoms, effects and anchors are concretized with
natural numbers; effects assign a boolean value to a fluent. -/

inductive Anchor : Type where
  | instant : Anchor
  | point : Nat → Anchor
  | interval : Nat → Nat → Anchor
deriving DecidableEq, Repr

structure Action : Type where
  name : String
  groups : List (Anchor × List BExpr)
  effects : List (Nat × Bool)
deriving DecidableEq, Repr

/-- DNF of one ConditionGroup: the group's entries are logically conjoined
into one combined expression before normalization (spec §4.2 step 1), which
normalizes as the Cartesian distribution of the entries' clause lists; an
empty group denotes the constant true (one empty clause). -/
def groupDnf (es : List BExpr) : List Clause :=
  (es.foldr (fun e acc => distr (toClauses (nnfPos (elimImpIff e))) acc) [[]]).filter
    (fun c => !c.contradictory)

theorem eval_groupDnf (s : Nat → Bool) (es : List BExpr) :
    Dnf.eval s (groupDnf es) = es.all (BExpr.eval s) := by
  unfold groupDnf
  rw [eval_filter_contradictory]
  induction es with
  | nil => simp [Dnf.eval, Clause.eval]
  | cons e es ih =>
      simp only [List.foldr_cons, eval_distr, ih, List.all_cons,
        (eval_toClauses_nnf_elim s e).1]

/-- Cartesian product of the groups' clause lists, in group order, later
groups varying fastest (spec §4.2 step 4). -/
def cartesian : List (List Clause) → List (List Clause)
  | [] => [[]]
  | g :: gs => g.flatMap (fun c => (cartesian gs).map (fun rest => c :: rest))

/-- Indexed map, used to attach the combination index to each generated
action. -/
def mapWithIndex (f : Nat → α → β) : Nat → List α → List β
  | _, [] => []
  | i, x :: xs => f i x :: mapWithIndex f (i + 1) xs

/-- The generated action for combination index `i` of action `A`:
a structural copy with effects and anchors unchanged, each group's
precondition replaced by the clause selected for that group, named
`A.name ++ "__" ++ i ++ "__"` (spec §4.2 step 4). -/
def mkGenerated (A : Action) (i : Nat) (choice : List Clause) : Action :=
  { name := A.name ++ "__" ++ toString i ++ "__",
    groups := List.zipWith (fun g cl => (g.1, cl.map Literal.toExpr)) A.groups choice,
    effects := A.effects }

/-- Per-action compilation (spec §4.2 steps 1–4): if every group's DNF has
exactly one clause the action passes through unchanged under its original
name; otherwise one generated action per combination of the Cartesian
product. -/
def compileAction (A : Action) : List Action :=
  let dnfs := A.groups.map (fun g => groupDnf g.2)
  if dnfs.all (fun cs => cs.length == 1) then [A]
  else mapWithIndex (mkGenerated A) 0 (cartesian dnfs)

structure Problem : Type where
  name : String
  fluents : List Nat
  actions : List Action
  init : List (Nat × Bool)
  goals : List BExpr
deriving DecidableEq, Repr

/-- The old-to-new Action Mapping: for every original action, the ordered
list of actions derived from it (spec §3). -/
abbrev Mapping : Type := List (Action × List Action)

/-- Does a name contain the reserved double-underscore delimiter? -/
def hasDoubleUnderscore : List Char → Bool
  | [] => false
  | [_] => false
  | c1 :: c2 :: rest => (c1 == '_' && c2 == '_') || hasDoubleUnderscore (c2 :: rest)

/-- The Naming-Convention Violation message, naming the offending action and
the problem (spec §7; message shape from the recorded test expectation). -/
def mkInvalidNameMsg (actionName problemName : String) : String :=
  "InstantaneousAction: " ++ actionName ++ " of problem: " ++ problemName ++
    " has invalid name. Double underscore __ is reserved by the naming convention."

/-- `compile(problem) -> (Compiled Problem, Action Mapping)` (spec §4.2):
fails before producing any output if any action name contains the reserved
delimiter; otherwise replaces every action by its compiled list, all other
problem data unchanged. -/
def compile (p : Problem) : Except String (Problem × Mapping) :=
  match p.actions.find? (fun a => hasDoubleUnderscore a.name.toList) with
  | some a => .error (mkInvalidNameMsg a.name p.name)
  | none =>
      let mapping := p.actions.map (fun a => (a, compileAction a))
      .ok ({ p with actions := mapping.flatMap Prod.snd }, mapping)

/-- The `DisjunctiveConditionsRemover` object: holds the input problem and
the cache of the compiled result (spec §3 Lifecycle). -/
structure DNFR : Type where
  problem : Problem
  cache : Option (Problem × Mapping)
deriving DecidableEq, Repr

/-- Constructing the remover from a problem leaves the cache empty. -/
def DNFR.ofProblem (p : Problem) : DNFR := ⟨p, none⟩

/-- `get_rewritten_problem()` (spec §6): returns the cached Compiled Problem
if present, otherwise compiles and caches. -/
def getRewrittenProblem (r : DNFR) : Except String (DNFR × Problem) :=
  match r.cache with
  | some (np, _) => .ok (r, np)
  | none =>
      match compile r.problem with
      | .error e => .error e
      | .ok (np, m) => .ok ({ r with cache := some (np, m) }, np)

/-! ## Plans and the back-rewriter (spec §4.3) -/

/-- A plan step: an action reference by name, bound argument values, and an
optional temporal placement (start time, duration). -/
structure Step : Type where
  name : String
  args : List Nat
  time : Option (Nat × Nat)
deriving DecidableEq, Repr

/-- Find, among the mapping entries, the original action whose list of
resulting actions contains the referenced action by name (spec §4.3). -/
def lookupOrig (m : Mapping) (n : String) : Option Action :=
  match m with
  | [] => none
  | (a, gens) :: rest =>
      if gens.any (fun g => g.name == n) then some a else lookupOrig rest n

/-- `rewrite_back_plan(plan)` (spec §4.3): replace every step's action
reference by the original action it derives from, keeping argument bindings
and temporal placement; fails on a step whose action is absent from every
mapping entry. -/
def rewriteBackPlan (m : Mapping) : List Step → Except String (List Step)
  | [] => .ok []
  | st :: rest =>
      match lookupOrig m st.name with
      | none => .error ("Action " ++ st.name ++ " not found in the mapping")
      | some a =>
          match rewriteBackPlan m rest with
          | .error e => .error e
          | .ok rest' => .ok ({ st with name := a.name } :: rest')

/-! ## Plan validity

Modelled from the spec: a sequential plan validator (the external collaborator
used by the test-suite): a step is executable when its referenced action is in
the problem and all of its condition groups hold in the current state; its
effects then update the state; a plan is valid when all steps execute and the
final state satisfies the goals. -/

/-- Initial state of a problem: fluents not mentioned default to false. -/
def stateOf (init : List (Nat × Bool)) : Nat → Bool :=
  fun f => match init.lookup f with | some b => b | none => false

def applyEffects (effs : List (Nat × Bool)) (s : Nat → Bool) : Nat → Bool :=
  fun f => match effs.lookup f with | some b => b | none => s f

/-- All of the action's condition groups hold in state `s`. -/
def Action.applicable (s : Nat → Bool) (a : Action) : Bool :=
  a.groups.all (fun g => g.2.all (BExpr.eval s))

def findAction (P : Problem) (n : String) : Option Action :=
  P.actions.find? (fun a => a.name == n)

def execStep (P : Problem) (s : Nat → Bool) (st : Step) : Option (Nat → Bool) :=
  match findAction P st.name with
  | none => none
  | some a => if a.applicable s then some (applyEffects a.effects s) else none

def execPlan (P : Problem) (s : Nat → Bool) : List Step → Option (Nat → Bool)
  | [] => some s
  | st :: rest =>
      match execStep P s st with
      | none => none
      | some s' => execPlan P s' rest

/-- A plan is valid for a problem when it executes from the initial state
and the final state satisfies every goal. -/
def checkPlan (P : Problem) (plan : List Step) : Bool :=
  match execPlan P (stateOf P.init) plan with
  | none => false
  | some s' => P.goals.all (BExpr.eval s')

/-! ## Lemmas about the per-action compilation -/

theorem eval_literal_toExpr (s : Nat → Bool) (l : Literal) :
    BExpr.eval s l.toExpr = Literal.eval s l := by
  rcases l with ⟨a, pos⟩
  cases pos <;> simp [Literal.toExpr, Literal.eval, BExpr.eval]

theorem all_map_toExpr (s : Nat → Bool) (cl : Clause) :
    (cl.map Literal.toExpr).all (BExpr.eval s) = Clause.eval s cl := by
  induction cl with
  | nil => rfl
  | cons l cl ih =>
      simp only [List.map_cons, List.all_cons, Clause.eval, ih,
        eval_literal_toExpr s l]

theorem dnf_eval_of_mem (s : Nat → Bool) {d : List Clause} {cl : Clause}
    (hm : cl ∈ d) (he : Clause.eval s cl = true) : Dnf.eval s d = true :=
  List.any_eq_true.mpr ⟨cl, hm, he⟩

theorem exists_mem_of_dnf_eval (s : Nat → Bool) {d : List Clause}
    (h : Dnf.eval s d = true) : ∃ cl ∈ d, Clause.eval s cl = true :=
  List.any_eq_true.mp h

theorem mem_cartesian_forall (ls : List (List Clause)) :
    ∀ choice ∈ cartesian ls, List.Forall₂ (fun c cs => c ∈ cs) choice ls := by
  induction ls with
  | nil =>
      intro choice hc
      simp only [cartesian, List.mem_singleton] at hc
      subst hc
      exact List.Forall₂.nil
  | cons g gs ih =>
      intro choice hc
      simp only [cartesian, List.mem_flatMap, List.mem_map] at hc
      obtain ⟨c, hcg, rest, hrest, hchoice⟩ := hc
      subst hchoice
      exact List.Forall₂.cons hcg (ih rest hrest)

theorem forall_mem_cartesian {ls : List (List Clause)} {choice : List Clause}
    (h : List.Forall₂ (fun c cs => c ∈ cs) choice ls) : choice ∈ cartesian ls := by
  induction h with
  | nil => simp [cartesian]
  | cons hr _ ih =>
      simp only [cartesian, List.mem_flatMap, List.mem_map]
      exact ⟨_, hr, _, ih, rfl⟩

theorem sum_map_const {α : Type} (g : List α) (k : Nat) :
    (g.map (fun _ => k)).sum = g.length * k := by
  induction g with
  | nil => simp
  | cons x xs ih => simp [ih, Nat.succ_mul, Nat.add_comm]

theorem cartesian_length (ls : List (List Clause)) :
    (cartesian ls).length = (ls.map List.length).prod := by
  induction ls with
  | nil => rfl
  | cons g gs ih =>
      simp only [cartesian, List.length_flatMap, List.map_map, List.map_cons,
        List.prod_cons, ← ih]
      have h1 : (List.map (List.length ∘ fun c => (cartesian gs).map (fun rest => c :: rest)) g)
          = List.map (fun _ => (cartesian gs).length) g := by
        apply List.map_congr_left
        intro c _
        simp
      rw [h1, sum_map_const]

theorem mapWithIndex_length (f : Nat → α → β) (i : Nat) (l : List α) :
    (mapWithIndex f i l).length = l.length := by
  induction l generalizing i with
  | nil => rfl
  | cons x xs ih => simp [mapWithIndex, ih]

theorem mem_mapWithIndex_of_mem (f : Nat → α → β) {x : α} {l : List α}
    (hx : x ∈ l) : ∀ i, ∃ n, f n x ∈ mapWithIndex f i l := by
  induction l with
  | nil => cases hx
  | cons y ys ih =>
      intro i
      rcases List.mem_cons.mp hx with h | h
      · subst h
        exact ⟨i, List.mem_cons_self _ _⟩
      · obtain ⟨n, hn⟩ := ih h (i + 1)
        exact ⟨n, List.mem_cons_of_mem _ hn⟩

theorem exists_of_mem_mapWithIndex (f : Nat → α → β) {y : β} :
    ∀ {l : List α} {i : Nat}, y ∈ mapWithIndex f i l → ∃ n, ∃ x ∈ l, y = f n x := by
  intro l
  induction l with
  | nil => intro i h; cases h
  | cons x xs ih =>
      intro i h
      rcases List.mem_cons.mp h with h | h
      · exact ⟨i, x, List.mem_cons_self _ _, h⟩
      · obtain ⟨n, x', hx', hy⟩ := ih h
        exact ⟨n, x', List.mem_cons_of_mem _ hx', hy⟩

/-- Effects are carried over unmodified to every resulting action. -/
theorem effects_compileAction {A g : Action} (h : g ∈ compileAction A) :
    g.effects = A.effects := by
  unfold compileAction at h
  by_cases hb : ((A.groups.map (fun g => groupDnf g.2)).all
      (fun cs => cs.length == 1)) = true
  · simp only [hb, if_true, List.mem_singleton] at h
    subst h; rfl
  · simp only [if_neg hb] at h
    obtain ⟨n, choice, _, hy⟩ := exists_of_mem_mapWithIndex _ h
    subst hy; rfl

theorem applicable_zipWith_of_forall (s : Nat → Bool) :
    ∀ (groups : List (Anchor × List BExpr)) (choice : List Clause),
      List.Forall₂ (fun c cs => c ∈ cs) choice (groups.map (fun g => groupDnf g.2)) →
      (List.zipWith (fun g cl => (g.1, cl.map Literal.toExpr)) groups choice).all
        (fun g => g.2.all (BExpr.eval s)) = true →
      groups.all (fun g => g.2.all (BExpr.eval s)) = true := by
  intro groups
  induction groups with
  | nil => intro choice _ _; rfl
  | cons hd tl ih =>
      intro choice hf hall
      rw [List.map_cons] at hf
      cases hf with
      | cons hc hrest =>
          rename_i c choice'
          simp only [List.zipWith_cons_cons, List.all_cons] at hall
          rw [Bool.and_eq_true] at hall
          obtain ⟨h1, h2⟩ := hall
          rw [List.all_cons, Bool.and_eq_true]
          refine ⟨?_, ih choice' hrest h2⟩
          rw [all_map_toExpr] at h1
          have := dnf_eval_of_mem s hc h1
          rw [eval_groupDnf] at this
          exact this

theorem zipWith_applicable_of_forall (s : Nat → Bool) :
    ∀ (groups : List (Anchor × List BExpr)) (choice : List Clause),
      List.Forall₂ (fun c cs => c ∈ cs ∧ Clause.eval s c = true) choice
        (groups.map (fun g => groupDnf g.2)) →
      (List.zipWith (fun g cl => (g.1, cl.map Literal.toExpr)) groups choice).all
        (fun g => g.2.all (BExpr.eval s)) = true := by
  intro groups
  induction groups with
  | nil =>
      intro choice hf
      rw [List.map_nil] at hf
      cases hf
      rfl
  | cons hd tl ih =>
      intro choice hf
      rw [List.map_cons] at hf
      cases hf with
      | cons hc hrest =>
          rename_i c choice'
          simp only [List.zipWith_cons_cons, List.all_cons]
          rw [Bool.and_eq_true]
          refine ⟨?_, ih choice' hrest⟩
          rw [all_map_toExpr]
          exact hc.2

/-- Soundness per action (invariant I2): a state in which some resulting
action is applicable satisfies the original action's combined condition. -/
theorem applicable_orig_of_generated (s : Nat → Bool) {A g : Action}
    (hg : g ∈ compileAction A) (ha : g.applicable s = true) :
    A.applicable s = true := by
  unfold compileAction at hg
  by_cases hb : ((A.groups.map (fun g => groupDnf g.2)).all
      (fun cs => cs.length == 1)) = true
  · simp only [hb, if_true, List.mem_singleton] at hg
    subst hg; exact ha
  · simp only [if_neg hb] at hg
    obtain ⟨n, choice, hc, hy⟩ := exists_of_mem_mapWithIndex _ hg
    subst hy
    have hf := mem_cartesian_forall _ choice hc
    exact applicable_zipWith_of_forall s A.groups choice hf ha

theorem exists_choice_of_applicable (s : Nat → Bool) :
    ∀ (groups : List (Anchor × List BExpr)),
      groups.all (fun g => g.2.all (BExpr.eval s)) = true →
      ∃ choice, List.Forall₂ (fun c cs => c ∈ cs ∧ Clause.eval s c = true) choice
        (groups.map (fun g => groupDnf g.2)) := by
  intro groups
  induction groups with
  | nil => intro _; exact ⟨[], by rw [List.map_nil]; exact List.Forall₂.nil⟩
  | cons hd tl ih =>
      intro hall
      rw [List.all_cons, Bool.and_eq_true] at hall
      obtain ⟨h1, h2⟩ := hall
      obtain ⟨choice', hrest⟩ := ih h2
      have hdnf : Dnf.eval s (groupDnf hd.2) = true := by
        rw [eval_groupDnf]; exact h1
      obtain ⟨c, hc, hce⟩ := exists_mem_of_dnf_eval s hdnf
      exact ⟨c :: choice', by rw [List.map_cons]; exact List.Forall₂.cons ⟨hc, hce⟩ hrest⟩

/-- Completeness per action (invariant I3): a state satisfying the original
action's combined condition makes some resulting action applicable. -/
theorem exists_generated_applicable (s : Nat → Bool) {A : Action}
    (ha : A.applicable s = true) :
    ∃ g ∈ compileAction A, g.applicable s = true := by
  unfold compileAction
  by_cases hb : ((A.groups.map (fun g => groupDnf g.2)).all
      (fun cs => cs.length == 1)) = true
  · exact ⟨A, by simp [hb], ha⟩
  · obtain ⟨choice, hf⟩ := exists_choice_of_applicable s A.groups ha
    have hmem : choice ∈ cartesian (A.groups.map (fun g => groupDnf g.2)) :=
      forall_mem_cartesian (List.Forall₂.imp (fun a b h => h.1) hf)
    obtain ⟨n, hn⟩ := mem_mapWithIndex_of_mem (mkGenerated A) hmem 0
    refine ⟨mkGenerated A n choice, by simp [if_neg hb]; exact hn, ?_⟩
    exact zipWith_applicable_of_forall s A.groups choice hf

/-! ## Lemmas about whole-problem compilation and name lookup -/

theorem compile_ok_inv {p cp : Problem} {m : Mapping}
    (h : compile p = .ok (cp, m)) :
    m = p.actions.map (fun a => (a, compileAction a)) ∧
    cp.actions = p.actions.flatMap compileAction ∧
    cp.init = p.init ∧ cp.goals = p.goals := by
  unfold compile at h
  cases hf : p.actions.find? (fun a => hasDoubleUnderscore a.name.toList) with
  | some a => rw [hf] at h; cases h
  | none =>
      rw [hf] at h
      simp only [Except.ok.injEq, Prod.mk.injEq] at h
      obtain ⟨hcp, hm⟩ := h
      subst hcp hm
      refine ⟨rfl, ?_, rfl, rfl⟩
      simp [List.flatMap_map]

theorem find_name_eq {g : Action} :
    ∀ (L : List Action), (L.map Action.name).Nodup → g ∈ L →
      L.find? (fun a => a.name == g.name) = some g := by
  intro L
  induction L with
  | nil => intro _ h; cases h
  | cons h tl ih =>
      intro hnd hmem
      rw [List.map_cons, List.nodup_cons] at hnd
      rcases List.mem_cons.mp hmem with rfl | hmem'
      · simp [List.find?_cons]
      · have hne : (h.name == g.name) = false := by
          apply beq_eq_false_iff_ne.mpr
          intro heq
          exact hnd.1 (heq ▸ List.mem_map_of_mem Action.name hmem')
        rw [List.find?_cons, hne]
        exact ih hnd.2 hmem'

theorem lookupOrig_spec {g A : Action} :
    ∀ (L : List Action) (n : String),
      ((L.flatMap compileAction).map Action.name).Nodup →
      A ∈ L → g ∈ compileAction A → g.name = n →
      lookupOrig (L.map (fun a => (a, compileAction a))) n = some A := by
  intro L
  induction L with
  | nil => intro n _ h; cases h
  | cons B tl ih =>
      intro n hnd hA hg hn
      rw [List.flatMap_cons, List.map_append, List.nodup_append] at hnd
      obtain ⟨hnd1, hnd2, hdisj⟩ := hnd
      rw [List.map_cons]
      show lookupOrig ((B, compileAction B) :: tl.map (fun a => (a, compileAction a))) n
        = some A
      rcases List.mem_cons.mp hA with rfl | hA'
      · unfold lookupOrig
        rw [if_pos]
        exact List.any_eq_true.mpr ⟨g, hg, by simp [hn]⟩
      · unfold lookupOrig
        rw [if_neg, ih n hnd2 hA' hg hn]
        intro hany
        obtain ⟨x, hx, hxn⟩ := List.any_eq_true.mp hany
        have hxn' : x.name = n := by simpa using hxn
        apply hdisj (a := n)
        · exact hxn' ▸ List.mem_map_of_mem Action.name hx
        · have : g ∈ tl.flatMap compileAction := List.mem_flatMap.mpr ⟨A, hA', hg⟩
          exact hn ▸ List.mem_map_of_mem Action.name this

/-! ## Inversion lemmas for plan execution -/

theorem execStep_some_inv {P : Problem} {s s' : Nat → Bool} {st : Step}
    (h : execStep P s st = some s') :
    ∃ a, findAction P st.name = some a ∧ a.applicable s = true ∧
      s' = applyEffects a.effects s := by
  unfold execStep at h
  cases hf : findAction P st.name with
  | none =>
      simp only [hf] at h
      exact Option.noConfusion h
  | some a =>
      simp only [hf] at h
      by_cases happ : a.applicable s = true
      · rw [if_pos happ] at h
        exact ⟨a, rfl, happ, (Option.some.injEq _ _ ▸ h).symm⟩
      · rw [if_neg happ] at h
        cases h

theorem execStep_eq {P : Problem} {s : Nat → Bool} {st : Step} {a : Action}
    (hf : findAction P st.name = some a) (happ : a.applicable s = true) :
    execStep P s st = some (applyEffects a.effects s) := by
  unfold execStep
  simp only [hf, if_pos happ]

theorem execPlan_cons_iff {P : Problem} {s s' : Nat → Bool} {st : Step}
    {rest : List Step} :
    execPlan P s (st :: rest) = some s' ↔
      ∃ s1, execStep P s st = some s1 ∧ execPlan P s1 rest = some s' := by
  cases h : execStep P s st with
  | none => simp [execPlan, h]
  | some s1 => simp [execPlan, h]

theorem checkPlan_iff {P : Problem} {plan : List Step} :
    checkPlan P plan = true ↔
      ∃ s', execPlan P (stateOf P.init) plan = some s' ∧
        P.goals.all (BExpr.eval s') = true := by
  cases h : execPlan P (stateOf P.init) plan <;> simp [checkPlan, h]

/-! ## Plan-level soundness and completeness -/

theorem exec_sound {p : Problem} {m : Mapping}
    (hm : m = p.actions.map (fun a => (a, compileAction a)))
    {cp : Problem} (hcp : cp.actions = p.actions.flatMap compileAction)
    (hndO : (p.actions.map Action.name).Nodup)
    (hndC : ((p.actions.flatMap compileAction).map Action.name).Nodup) :
    ∀ (plan : List Step) (s s' : Nat → Bool), execPlan cp s plan = some s' →
      ∃ plan', rewriteBackPlan m plan = .ok plan' ∧ execPlan p s plan' = some s' := by
  intro plan
  induction plan with
  | nil =>
      intro s s' h
      exact ⟨[], rfl, h⟩
  | cons st rest ih =>
      intro s s' h
      obtain ⟨s1, hstep, hrest⟩ := execPlan_cons_iff.mp h
      obtain ⟨rest', hrw, hexec⟩ := ih s1 s' hrest
      obtain ⟨g, hfind, happ, hs1⟩ := execStep_some_inv hstep
      have hgmem : g ∈ cp.actions := List.mem_of_find?_eq_some hfind
      have hgname : g.name = st.name := by
        have := List.find?_some hfind
        simpa using this
      rw [hcp] at hgmem
      obtain ⟨A, hA, hgA⟩ := List.mem_flatMap.mp hgmem
      have hlook : lookupOrig m st.name = some A := by
        rw [hm]
        exact lookupOrig_spec p.actions st.name hndC hA hgA hgname
      have happA : A.applicable s = true := applicable_orig_of_generated s hgA happ
      have hfindp : findAction p A.name = some A := find_name_eq p.actions hndO hA
      refine ⟨{ st with name := A.name } :: rest', ?_, ?_⟩
      · simp only [rewriteBackPlan, hlook, hrw]
      · apply execPlan_cons_iff.mpr
        refine ⟨s1, ?_, hexec⟩
        have h2 := @execStep_eq p s { st with name := A.name } A hfindp happA
        rw [h2, hs1, effects_compileAction hgA]
  -- end of exec_sound

theorem exec_complete {p : Problem} {m : Mapping}
    (hm : m = p.actions.map (fun a => (a, compileAction a)))
    {cp : Problem} (hcp : cp.actions = p.actions.flatMap compileAction)
    (hndC : ((p.actions.flatMap compileAction).map Action.name).Nodup) :
    ∀ (plan' : List Step) (s s' : Nat → Bool), execPlan p s plan' = some s' →
      ∃ plan, execPlan cp s plan = some s' ∧ rewriteBackPlan m plan = .ok plan' := by
  intro plan'
  induction plan' with
  | nil =>
      intro s s' h
      exact ⟨[], h, rfl⟩
  | cons st rest ih =>
      intro s s' h
      obtain ⟨n, args, time⟩ := st
      obtain ⟨s1, hstep, hrest⟩ := execPlan_cons_iff.mp h
      obtain ⟨rest'', hexec, hrw⟩ := ih s1 s' hrest
      obtain ⟨A, hfind, happ, hs1⟩ := execStep_some_inv hstep
      have hAmem : A ∈ p.actions := List.mem_of_find?_eq_some hfind
      have hAname : A.name = n := by
        have := List.find?_some hfind
        simpa using this
      obtain ⟨g, hgA, hgapp⟩ := exists_generated_applicable s happ
      have hgmem : g ∈ cp.actions := by
        rw [hcp]
        exact List.mem_flatMap.mpr ⟨A, hAmem, hgA⟩
      have hndC' : (cp.actions.map Action.name).Nodup := by rw [hcp]; exact hndC
      have hfindc : findAction cp g.name = some g := find_name_eq cp.actions hndC' hgmem
      have hlook : lookupOrig m g.name = some A := by
        rw [hm]
        exact lookupOrig_spec p.actions g.name hndC hAmem hgA rfl
      refine ⟨{ name := g.name, args := args, time := time } :: rest'', ?_, ?_⟩
      · apply execPlan_cons_iff.mpr
        refine ⟨s1, ?_, hexec⟩
        have h2 := @execStep_eq cp s { name := g.name, args := args, time := time } g
          hfindc hgapp
        rw [h2, hs1, effects_compileAction hgA]
      · simp only [rewriteBackPlan, hlook, hrw, hAname]

/-! ## The HTN Task / Subtask identifier model

Embedded from `unified_planning/model/htn/task.py`.  The module-level
mutable counter `_task_id_counter` becomes an explicit `counter` argument
threaded through each construction; the constructed `Subtask` and the new
counter value are returned together.  The constructor's
`assert len(args) == len(task.parameters)` is modelled as an `Option`. -/

structure Task : Type where
  name : String
  parameters : List String
deriving DecidableEq, Repr

structure Subtask : Type where
  task : String
  args : List Nat
  ident : String
deriving DecidableEq, Repr

/-- `Subtask.__init__`: if `ident` is given it is stored verbatim;
otherwise the shared counter is incremented and the identifier is
`"_t" ++ counter`. -/
def subtaskNew (counter : Nat) (t : Task) (args : List Nat)
    (ident : Option String) : Option (Subtask × Nat) :=
  if args.length = t.parameters.length then
    match ident with
    | some s => some ({ task := t.name, args := args, ident := s }, counter)
    | none =>
        some ({ task := t.name, args := args, ident := "_t" ++ toString (counter + 1) },
          counter + 1)
  else none

/-- `Task.__call__(self, *args, ident=None)`: returns `Subtask(self, *args)`
— the `ident` keyword parameter is accepted but not forwarded. -/
def taskCall (counter : Nat) (t : Task) (args : List Nat)
    (ident : Option String) : Option (Subtask × Nat) :=
  subtaskNew counter t args none

/-- The counter value after one construction context has created `k`
auto-identified subtasks of a parameterless task against the shared
counter. -/
def spawnMany (t : Task) (counter : Nat) : Nat → Nat
  | 0 => counter
  | k + 1 =>
      match subtaskNew counter t [] none with
      | some (_, c') => spawnMany t c' k
      | none => counter

theorem spawnMany_eq_add {t : Task} (hp : t.parameters = []) :
    ∀ (k c : Nat), spawnMany t c k = c + k := by
  intro k
  induction k with
  | zero => intro c; rfl
  | succ k ih =>
      intro c
      show spawnMany t c (k + 1) = c + (k + 1)
      unfold spawnMany subtaskNew
      simp only [hp, List.length_nil, if_pos]
      rw [ih]
      omega

/-! ## Concrete fixtures from the recorded test-suite -/

/-- The `test_ad_hoc` action: precondition
`Implies(Iff(a, Implies(b, c)), And(a, d))` with effect `a := true`
(atoms a, b, c, d are 0, 1, 2, 3). -/
def bAct : Action :=
  { name := "act",
    groups := [(Anchor.instant,
      [.imp (.iff (.atom 0) (.imp (.atom 1) (.atom 2))) (.band (.atom 0) (.atom 3))])],
    effects := [(0, true)] }

def bProblem : Problem :=
  { name := "mockup", fluents := [0, 1, 2, 3], actions := [bAct],
    init := [(0, true), (1, false), (2, true), (3, false)], goals := [.atom 0] }

/-- The actions expected by `test_ad_hoc`, in index order. -/
def bGen0 : Action :=
  ⟨"act__0__", [(Anchor.instant, [.bnot (.atom 0), .bnot (.atom 1)])], [(0, true)]⟩
def bGen1 : Action :=
  ⟨"act__1__", [(Anchor.instant, [.bnot (.atom 0), .atom 2])], [(0, true)]⟩
def bGen2 : Action :=
  ⟨"act__2__", [(Anchor.instant, [.atom 1, .bnot (.atom 2), .atom 0])], [(0, true)]⟩
def bGen3 : Action :=
  ⟨"act__3__", [(Anchor.instant, [.atom 0, .atom 3])], [(0, true)]⟩

/-- The action list of the Compiled Problem, `[]` on compilation failure. -/
def compiledActionsOf (p : Problem) : List Action :=
  match compile p with
  | .ok (cp, _) => cp.actions
  | .error _ => []

/-- Scenario A (`test_robot_locations_visited` shape): one action with
precondition `Or(p, q)` and one unsplit action, in a 2-action problem. -/
def aAct : Action :=
  ⟨"act", [(Anchor.instant, [.bor (.atom 0) (.atom 1)])], [(2, true)]⟩
def aAct2 : Action :=
  ⟨"act2", [(Anchor.instant, [.atom 0])], [(3, true)]⟩
def aProblem : Problem :=
  ⟨"twoActions", [0, 1, 2, 3], [aAct, aAct2], [(0, true)], [.atom 2]⟩

/-- The `test_raise_exceptions` problem: a second action literally named
`act__1__`. -/
def cAct2 : Action :=
  { name := "act__1__",
    groups := [(Anchor.instant,
      [.imp (.iff (.atom 0) (.imp (.atom 1) (.atom 2))) (.band (.atom 0) (.atom 3))])],
    effects := [(0, true)] }
def cProblem : Problem :=
  { name := "mockup", fluents := [0, 1, 2, 3], actions := [bAct, cAct2],
    init := [(0, true), (1, false), (2, true), (3, false)], goals := [.atom 0] }

/-- The `test_temproal_mockup` durative action: the same expression
`Implies(Not(a), Or(b, And(Iff(c, d), d)))` at four independent anchors. -/
def tExp : BExpr :=
  .imp (.bnot (.atom 0)) (.bor (.atom 1) (.band (.iff (.atom 2) (.atom 3)) (.atom 3)))
def tAct : Action :=
  { name := "act",
    groups := [(Anchor.point 0, [tExp]), (Anchor.point 1, [tExp]),
      (Anchor.interval 2 3, [tExp]), (Anchor.interval 4 5, [tExp])],
    effects := [(0, true)] }
def tProblem : Problem :=
  { name := "temporal_mockup", fluents := [0, 1, 2, 3], actions := [tAct],
    init := [(0, false), (1, false), (2, true), (3, false)], goals := [.atom 0] }

theorem prod_eq_one_of_all_single :
    ∀ (ls : List (List Clause)), ls.all (fun cs => cs.length == 1) = true →
      (ls.map List.length).prod = 1 := by
  intro ls
  induction ls with
  | nil => intro _; rfl
  | cons g gs ih =>
      intro h
      rw [List.all_cons, Bool.and_eq_true] at h
      rw [List.map_cons, List.prod_cons, ih h.2, Nat.mul_one]
      simpa using h.1

/-- Count of resulting actions per original action. -/
theorem compileAction_length (A : Action) :
    (compileAction A).length
      = ((A.groups.map (fun g => groupDnf g.2)).map List.length).prod := by
  unfold compileAction
  by_cases hb : ((A.groups.map (fun g => groupDnf g.2)).all
      (fun cs => cs.length == 1)) = true
  · rw [if_pos hb, prod_eq_one_of_all_single _ hb]
    rfl
  · rw [if_neg hb, mapWithIndex_length, cartesian_length]

/-- The compiled problem and mapping produced for `aProblem`, spelt via
`compile` itself. -/
def aMapping : Mapping := aProblem.actions.map (fun a => (a, compileAction a))

def aCompiled : Problem := { aProblem with actions := aMapping.flatMap Prod.snd }

/-! ## The claims -/

/-- C1: for every plan valid against the Compiled Problem, the plan returned
by `rewrite_back_plan` is valid against the original problem, every step's
action reference replaced by the original action the referenced generated
action derives from; and for every plan valid against the original problem
there is a valid plan against the Compiled Problem whose back-rewrite is
structurally equal to it. -/
theorem C1_plan_round_trip {p cp : Problem} {m : Mapping}
    (hok : compile p = .ok (cp, m))
    (hndO : (p.actions.map Action.name).Nodup)
    (hndC : (cp.actions.map Action.name).Nodup) :
    (∀ plan, checkPlan cp plan = true →
      ∃ plan', rewriteBackPlan m plan = .ok plan' ∧ checkPlan p plan' = true) ∧
    (∀ plan', checkPlan p plan' = true →
      ∃ plan, checkPlan cp plan = true ∧ rewriteBackPlan m plan = .ok plan') := by
  obtain ⟨hm, hcp, hinit, hgoals⟩ := compile_ok_inv hok
  have hndC' : ((p.actions.flatMap compileAction).map Action.name).Nodup := by
    rw [← hcp]
    exact hndC
  constructor
  · intro plan hv
    obtain ⟨s', hex, hgl⟩ := checkPlan_iff.mp hv
    rw [hinit] at hex
    obtain ⟨plan', hrw, hex'⟩ := exec_sound hm hcp hndO hndC' plan _ s' hex
    refine ⟨plan', hrw, checkPlan_iff.mpr ⟨s', hex', ?_⟩⟩
    rw [← hgoals]
    exact hgl
  · intro plan' hv
    obtain ⟨s', hex, hgl⟩ := checkPlan_iff.mp hv
    obtain ⟨plan, hex2, hrw⟩ := exec_complete hm hcp hndC' plan' _ s' hex
    refine ⟨plan, checkPlan_iff.mpr ⟨s', ?_, ?_⟩, hrw⟩
    · rw [hinit]
      exact hex2
    · rw [hgoals]
      exact hgl

/-- Witness for C1 on the concrete two-action problem: the compiled plan
`[act__0__]` back-rewrites to a plan valid on the original problem. -/
theorem C1_plan_round_trip_witness :
    compile aProblem = .ok (aCompiled, aMapping) ∧
    checkPlan aCompiled [⟨"act__0__", [], none⟩] = true ∧
    (∃ plan', rewriteBackPlan aMapping [⟨"act__0__", [], none⟩] = .ok plan' ∧
      checkPlan aProblem plan' = true) :=
  ⟨rfl, by decide,
    (@C1_plan_round_trip aProblem aCompiled aMapping rfl (by decide) (by decide)).1
      [⟨"act__0__", [], none⟩] (by decide)⟩

/-- C2: the action with precondition `Implies(Iff(a, Implies(b, c)), And(a, d))`
compiles to exactly the 4 generated actions `act__0__` .. `act__3__` with
precondition lists `{¬a, ¬b}`, `{¬a, c}`, `{b, ¬c, a}`, `{a, d}` in index
order, each carrying the original effects unmodified. -/
theorem C2_scenario_b :
    compiledActionsOf bProblem = [bGen0, bGen1, bGen2, bGen3] ∧
    bGen0.effects = bAct.effects ∧ bGen1.effects = bAct.effects ∧
    bGen2.effects = bAct.effects ∧ bGen3.effects = bAct.effects := by
  decide

/-- C3: compiling a problem containing an action whose name contains the
double-underscore delimiter fails with an error naming the offending action
and the problem, and no Compiled Problem is produced. -/
theorem C3_naming_violation {p : Problem}
    (h : ∃ a ∈ p.actions, hasDoubleUnderscore a.name.toList = true) :
    ∃ a ∈ p.actions, hasDoubleUnderscore a.name.toList = true ∧
      compile p = .error (mkInvalidNameMsg a.name p.name) := by
  have hsome : (p.actions.find? (fun a => hasDoubleUnderscore a.name.toList)).isSome := by
    rw [List.find?_isSome]
    exact h
  obtain ⟨a, hfa⟩ := Option.isSome_iff_exists.mp hsome
  have hp : hasDoubleUnderscore a.name.toList = true := by
    have := List.find?_some hfa
    simpa using this
  refine ⟨a, List.mem_of_find?_eq_some hfa, hp, ?_⟩
  unfold compile
  rw [hfa]

/-- Witness for C3 on the recorded mockup: the problem containing `act__1__`
is rejected with the exact recorded message. -/
theorem C3_naming_violation_witness :
    (∃ a ∈ cProblem.actions, hasDoubleUnderscore a.name.toList = true) ∧
    (∃ a ∈ cProblem.actions, hasDoubleUnderscore a.name.toList = true ∧
      compile cProblem = .error (mkInvalidNameMsg a.name cProblem.name)) ∧
    mkInvalidNameMsg "act__1__" "mockup"
      = "InstantaneousAction: act__1__ of problem: mockup has invalid name. Double underscore __ is reserved by the naming convention." :=
  ⟨by decide, C3_naming_violation (by decide), rfl⟩

/-- C4: an action with precondition `Or(p, q)` splits into `act__0__` with
precondition `{p}` (the left disjunct) and `act__1__` with `{q}`, an unsplit
second action keeps its original name, and the 2-action problem compiles to
a 3-action problem. -/
theorem C4_scenario_a :
    aProblem.actions.length = 2 ∧
    compiledActionsOf aProblem
      = [⟨"act__0__", [(Anchor.instant, [.atom 0])], [(2, true)]⟩,
         ⟨"act__1__", [(Anchor.instant, [.atom 1])], [(2, true)]⟩, aAct2] ∧
    (compiledActionsOf aProblem).length = 3 := by
  decide

/-- C5: every original action's mapping entry has length equal to the
product of its condition groups' DNF sizes, length 1 when no splitting is
needed; the durative mockup with four 3-clause groups yields 81 generated
actions while the original problem still has 1 action. -/
theorem C5_count_law :
    (∀ (p cp : Problem) (m : Mapping) (A : Action) (gens : List Action),
      compile p = .ok (cp, m) → (A, gens) ∈ m →
      gens.length = ((A.groups.map (fun g => groupDnf g.2)).map List.length).prod) ∧
    (∀ A : Action,
      ((A.groups.map (fun g => groupDnf g.2)).all (fun cs => cs.length == 1)) = true →
      (compileAction A).length = 1) ∧
    (tAct.groups.map (fun g => (groupDnf g.2).length)) = [3, 3, 3, 3] ∧
    (compiledActionsOf tProblem).length = 81 ∧
    tProblem.actions.length = 1 := by
  refine ⟨?_, ?_, by decide, by decide, rfl⟩
  · intro p cp m A gens hok hmem
    obtain ⟨hm, _, _, _⟩ := compile_ok_inv hok
    rw [hm] at hmem
    obtain ⟨a, _, heq⟩ := List.mem_map.mp hmem
    rw [Prod.mk.injEq] at heq
    obtain ⟨rfl, rfl⟩ := heq
    exact compileAction_length a
  · intro A h
    rw [compileAction_length]
    exact prod_eq_one_of_all_single _ h

/-- Witness for C5 on the two-action problem: the split action's mapping
entry has length 2 = the product of its single group's 2-clause DNF. -/
theorem C5_count_law_witness :
    compile aProblem = .ok (aCompiled, aMapping) ∧
    (aAct, compileAction aAct) ∈ aMapping ∧
    (compileAction aAct).length
      = ((aAct.groups.map (fun g => groupDnf g.2)).map List.length).prod :=
  ⟨rfl, by decide,
    C5_count_law.1 aProblem aCompiled aMapping aAct (compileAction aAct) rfl (by decide)⟩

/-- C6: `get_rewritten_problem()` called again on the resulting state
returns the very same Compiled Problem and leaves the state unchanged
(the cached result is reused). -/
theorem C6_idempotent {r r' : DNFR} {np : Problem}
    (h : getRewrittenProblem r = .ok (r', np)) :
    getRewrittenProblem r' = .ok (r', np) := by
  unfold getRewrittenProblem at h ⊢
  cases hc : r.cache with
  | some pr =>
      obtain ⟨np0, m0⟩ := pr
      simp only [hc, Except.ok.injEq, Prod.mk.injEq] at h
      obtain ⟨hr, hnp⟩ := h
      subst hr
      subst hnp
      simp [hc]
  | none =>
      simp only [hc] at h
      cases hcmp : compile r.problem with
      | error e =>
          simp only [hcmp] at h
          exact Except.noConfusion h
      | ok pr =>
          obtain ⟨np0, m0⟩ := pr
          simp only [hcmp, Except.ok.injEq, Prod.mk.injEq] at h
          obtain ⟨hr, hnp⟩ := h
          subst hnp
          subst hr
          rfl

/-- Witness for C6 on the two-action problem. -/
theorem C6_idempotent_witness :
    ∃ r' np, getRewrittenProblem (DNFR.ofProblem aProblem) = .ok (r', np) ∧
      getRewrittenProblem r' = .ok (r', np) :=
  ⟨_, _, rfl, @C6_idempotent (DNFR.ofProblem aProblem) _ _ (by rfl)⟩

/-- C7: compilation never mutates the input problem: the problem held by the
remover after `get_rewritten_problem()` is the one it was constructed
with. -/
theorem C7_input_unchanged {r r' : DNFR} {np : Problem}
    (h : getRewrittenProblem r = .ok (r', np)) :
    r'.problem = r.problem := by
  unfold getRewrittenProblem at h
  cases hc : r.cache with
  | some pr =>
      obtain ⟨np0, m0⟩ := pr
      simp only [hc, Except.ok.injEq, Prod.mk.injEq] at h
      rw [← h.1]
  | none =>
      simp only [hc] at h
      cases hcmp : compile r.problem with
      | error e =>
          simp only [hcmp] at h
          exact Except.noConfusion h
      | ok pr =>
          obtain ⟨np0, m0⟩ := pr
          simp only [hcmp, Except.ok.injEq, Prod.mk.injEq] at h
          rw [← h.1]

/-- Witness for C7 on the temporal mockup: after compiling the 1-action
problem into an 81-action problem, the input problem is unchanged and still
reports exactly 1 action. -/
theorem C7_input_unchanged_witness :
    ∃ r' np, getRewrittenProblem (DNFR.ofProblem tProblem) = .ok (r', np) ∧
      r'.problem = (DNFR.ofProblem tProblem).problem ∧
      r'.problem.actions.length = 1 ∧ np.actions.length = 81 :=
  ⟨_, _, rfl, @C7_input_unchanged (DNFR.ofProblem tProblem) _ _ (by rfl), rfl, by decide⟩

/-- C8: the back-rewriter changes only each step's action reference: bound
arguments and temporal placement are unchanged stepwise, and the output
plan has the same number of steps in the same order. -/
theorem C8_rewrite_frame {m : Mapping} :
    ∀ {plan plan' : List Step}, rewriteBackPlan m plan = .ok plan' →
      plan'.length = plan.length ∧
      List.Forall₂ (fun st st' => st'.args = st.args ∧ st'.time = st.time) plan plan' := by
  intro plan
  induction plan with
  | nil =>
      intro plan' h
      simp only [rewriteBackPlan, Except.ok.injEq] at h
      subst h
      exact ⟨rfl, List.Forall₂.nil⟩
  | cons st rest ih =>
      intro plan' h
      unfold rewriteBackPlan at h
      cases hl : lookupOrig m st.name with
      | none =>
          simp only [hl] at h
          exact Except.noConfusion h
      | some a =>
          simp only [hl] at h
          cases hr : rewriteBackPlan m rest with
          | error e =>
              simp only [hr] at h
              exact Except.noConfusion h
          | ok rest' =>
              simp only [hr, Except.ok.injEq] at h
              subst h
              obtain ⟨hlen, hf⟩ := ih hr
              exact ⟨by simp [hlen], List.Forall₂.cons ⟨rfl, rfl⟩ hf⟩

/-- Witness for C8: rewriting a one-step compiled plan with arguments and
timing preserves both. -/
theorem C8_rewrite_frame_witness :
    rewriteBackPlan aMapping [⟨"act__0__", [5], some (3, 4)⟩]
      = .ok [⟨"act", [5], some (3, 4)⟩] ∧
    ([⟨"act", [5], some (3, 4)⟩] : List Step).length
      = ([⟨"act__0__", [5], some (3, 4)⟩] : List Step).length ∧
    List.Forall₂ (fun st st' => st'.args = st.args ∧ st'.time = st.time)
      ([⟨"act__0__", [5], some (3, 4)⟩] : List Step)
      ([⟨"act", [5], some (3, 4)⟩] : List Step) :=
  ⟨by rfl, @C8_rewrite_frame aMapping [⟨"act__0__", [5], some (3, 4)⟩]
    [⟨"act", [5], some (3, 4)⟩] (by rfl)⟩

/-- C9 counterexample: the auto-generated Subtask identifier is drawn from
the process-wide counter, so the identifier assigned in one context changes
with the number of subtasks previously created in another context
(`_t1` when none were, `_t2` after one was). -/
theorem C9_counterexample :
    subtaskNew 0 ⟨"t", []⟩ [] none = some (⟨"t", [], "_t1"⟩, 1) ∧
    subtaskNew (spawnMany ⟨"t", []⟩ 0 1) ⟨"t", []⟩ [] none
      = some (⟨"t", [], "_t2"⟩, 2) ∧
    ("_t1" : String) ≠ "_t2" := by
  decide

/-- C9 amended: Subtask identifier generation uses the single process-wide
counter `_task_id_counter`, so the identifier auto-assigned in one context
is `"_t" ++ (c + k + 1)` after `k` subtasks were created in another context
over shared counter value `c` — it depends on the other context. -/
theorem C9_global_counter_dependence {t : Task} (hp : t.parameters = []) :
    ∀ (c k : Nat), subtaskNew (spawnMany t c k) t [] none
      = some ({ task := t.name, args := [], ident := "_t" ++ toString (c + k + 1) },
          c + k + 1) := by
  intro c k
  rw [spawnMany_eq_add hp]
  unfold subtaskNew
  simp [hp]

/-- Witness for the amended C9. -/
theorem C9_global_counter_dependence_witness :
    ((⟨"t", []⟩ : Task).parameters = []) ∧
    subtaskNew (spawnMany ⟨"t", []⟩ 0 2) ⟨"t", []⟩ [] none
      = some (⟨"t", [], "_t" ++ toString (0 + 2 + 1)⟩, 0 + 2 + 1) :=
  ⟨rfl, C9_global_counter_dependence rfl 0 2⟩

/-- C10 counterexample: calling a task with `ident = "_t1"` on a fresh
counter returns a Subtask whose identifier equals the supplied string, so
the claim's "and not s" fails at this input. -/
theorem C10_counterexample :
    taskCall 0 ⟨"t", []⟩ [] (some "_t1") = some (⟨"t", [], "_t1"⟩, 1) := by
  decide

/-- C10 amended: `Task.__call__` never forwards its `ident` keyword: for an
argument list matching the task's arity the constructed Subtask carries
the freshly auto-generated identifier `"_t" ++ (c + 1)` whatever `s` is
(which may coincide with `s`), identical to the `ident = None` call. -/
theorem C10_ident_not_forwarded {t : Task} {args : List Nat}
    (h : args.length = t.parameters.length) (c : Nat) (s : String) :
    taskCall c t args (some s)
      = some ({ task := t.name, args := args, ident := "_t" ++ toString (c + 1) },
          c + 1) ∧
    taskCall c t args (some s) = taskCall c t args none := by
  refine ⟨?_, rfl⟩
  unfold taskCall subtaskNew
  rw [if_pos h]

/-- Witness for the amended C10. -/
theorem C10_ident_not_forwarded_witness :
    (([] : List Nat).length = (⟨"t", []⟩ : Task).parameters.length) ∧
    taskCall 3 ⟨"t", []⟩ [] (some "custom")
      = some (⟨"t", [], "_t" ++ toString (3 + 1)⟩, 3 + 1) :=
  ⟨rfl, (C10_ident_not_forwarded rfl 3 "custom").1⟩

end UPF
